import Mathlib

/-!
Verification of the natural-language specification of
`etc/scripts/homebrew.py` (scancode-plugins) against a shallow Lean
embedding of that script.

The embedding works on `String` values through their underlying character
lists, mirroring the Python string primitives the script uses
(`strip`, `rpartition`, `partition`, `startswith`, `endswith`, `in`,
`os.path.join`, `os.path.basename`, `os.path.dirname`).  Filesystem state
is passed explicitly as a record of pure query functions, and filesystem
mutation is modelled as a list of emitted actions.  Recursive traversals
are given explicit fuel; running out of fuel models unbounded recursion.
-/

namespace HomebrewScript

/-! ## Python string primitives -/

/-- Python `s.strip(chars)`: drop the given characters from both ends. -/
def pyStripChars (chars : List Char) (s : String) : String :=
  ⟨((s.data.dropWhile (fun c => chars.contains c)).reverse.dropWhile
      (fun c => chars.contains c)).reverse⟩

/-- Python `s.strip('/')`, as used by `Download.__init__` and `Download.from_index`. -/
def stripSlashes (s : String) : String :=
  pyStripChars ['/'] s

/-- Python `s.rpartition(sep)[2]` for a one-character separator: the part of
`s` after the last occurrence of `sep` (all of `s` when `sep` is absent).
Also models `os.path.basename`. -/
def lastSegAfter (sep : Char) (s : String) : String :=
  ⟨(s.data.reverse.takeWhile (fun c => c ≠ sep)).reverse⟩

/-- Python `s.endswith(suffix)`. -/
def pyEndsWith (s suffix : String) : Bool :=
  suffix.data.isSuffixOf s.data

/-- Python `s.startswith(p)`. -/
def pyStartsWith (s p : String) : Bool :=
  p.data.isPrefixOf s.data

/-- Locate the first occurrence of `pat` in a character list, returning the
parts strictly before and strictly after it. -/
def splitAtFirst (pat : List Char) : List Char → Option (List Char × List Char)
  | [] => none
  | c :: rest =>
    if pat.isPrefixOf (c :: rest) then some ([], List.drop pat.length (c :: rest))
    else
      match splitAtFirst pat rest with
      | some (bef, aft) => some (c :: bef, aft)
      | none => none

/-- Python `pat in s` (substring containment). -/
def pyContains (s pat : String) : Bool :=
  (splitAtFirst pat.data s.data).isSome || pat.data.isPrefixOf s.data

/-- Python `s.partition(sep)[2]`: the part after the first occurrence of
`sep`, or the empty string when `sep` does not occur. -/
def pyPartitionAfter (s sep : String) : String :=
  match splitAtFirst sep.data s.data with
  | some (_, aft) => ⟨aft⟩
  | none => ""

/-- Python `s.partition(sep)` for a one-character separator, returning the
parts before and after the first occurrence (`(s, "")` when absent). -/
def pyPartitionChar (sep : Char) : List Char → List Char × List Char
  | [] => ([], [])
  | c :: rest =>
    if c = sep then ([], rest)
    else
      let (bef, aft) := pyPartitionChar sep rest
      (c :: bef, aft)

/-- Python `s.strip()` with no argument: strip ASCII whitespace from both
ends. -/
def pyTrim (s : String) : String :=
  pyStripChars [' ', '\t', '\n', '\r', Char.ofNat 11, Char.ofNat 12] s

/-- Truthiness of an optional string (`None` and `""` are falsy in Python). -/
def truthyStr : Option String → Bool
  | none => false
  | some s => !(s = "")

/-- Python `os.path.join(a, b)` restricted to two components. -/
def joinPath (a b : String) : String :=
  if pyStartsWith b "/" then b
  else if a = "" then b
  else if pyEndsWith a "/" then a ++ b
  else a ++ "/" ++ b

/-- Python `os.path.dirname(s)`: the head of `os.path.split`, with trailing
slashes stripped unless the head consists only of slashes. -/
def dirname (s : String) : String :=
  let l := s.data
  let head := l.take (l.length - (l.reverse.takeWhile (fun c => c ≠ '/')).length)
  if head.all (fun c => c = '/') then ⟨head⟩
  else ⟨(head.reverse.dropWhile (fun c => c = '/')).reverse⟩

/-- Python `template.format(arg)` for a template holding a single positional
placeholder, as used for `Repository.formula_base_url`. -/
def strFormat (template arg : String) : String :=
  match splitAtFirst [Char.ofNat 123, Char.ofNat 125] template.data with
  | some (bef, aft) => ⟨bef⟩ ++ arg ++ ⟨aft⟩
  | none => template

/-! ## Download -/

/-- A source, patch or binary download (`class Download`). -/
structure Download where
  url : String
  file_name : String
  sha256 : Option String
  deriving DecidableEq, Repr

/-- The `Download.__init__` constructor: strips slashes from the URL and
derives `file_name` from the URL's final path segment when not given. -/
def Download.make (url : String) (file_name : Option String)
    (sha256 : Option String) : Download :=
  let url := stripSlashes url
  let fn := if truthyStr file_name then file_name.getD "" else lastSegAfter '/' url
  { url := url, file_name := fn, sha256 := sha256 }

/-- Outcome of `Download.from_index`: the `assert` may fail, the
`return` with no value (line 158 of the script) yields `None`, and the
normal paths yield a `Download`. -/
inductive FromIndexResult where
  | assertError
  | noDownload
  | dl (d : Download)
  deriving DecidableEq, Repr

/-- Whether a `from_index` outcome is the valueless `return` ("no
download"). -/
def FromIndexResult.isNoDownload : FromIndexResult → Bool
  | .noDownload => true
  | _ => false

/-- The `Download.from_index` classmethod, line by line.  The first branch
returns for every call with falsy `tag` and falsy `revision`, which makes
the later `if not tag and not revision: return` unreachable. -/
def Download.from_index (url : String) (tag revision sha256 : Option String) :
    FromIndexResult :=
  let url := stripSlashes url
  if !truthyStr tag && !truthyStr revision then
    .dl (Download.make url (some (lastSegAfter '/' url)) sha256)
  else if !pyStartsWith url "https://github.com" then
    .assertError
  else if !truthyStr tag && !truthyStr revision then
    .noDownload
  else
    let url := if pyEndsWith url ".git" then ⟨url.data.take (url.data.length - 4)⟩ else url
    let commitish := if truthyStr revision then revision.getD "" else tag.getD ""
    let download_url := url ++ "/archive/" ++ commitish ++ ".tar.gz"
    let ghrepo_name := lastSegAfter '/' url
    let file_name := ghrepo_name ++ "-" ++ commitish ++ ".tar.gz"
    .dl (Download.make download_url (some file_name) sha256)

/-! ## BinaryPackage -/

/-- A binary package descriptor (`class BinaryPackage`).  `fullversion` and
`fqname` are the derived fields computed by `__init__`. -/
structure BinaryPackage where
  name : String
  version : String
  revision : String
  download_urls : List (String × Download)
  formula_download_url : Download
  source_download_urls : List Download
  depends : List (String × String)
  fullversion : String
  fqname : String
  deriving DecidableEq, Repr

/-- The `BinaryPackage.__init__` constructor, computing the derived
`fullversion` (version, plus `_revision` when the revision is truthy) and
`fqname` fields. -/
def BinaryPackage.make (name version revision : String)
    (download_urls : List (String × Download)) (formula_download_url : Download)
    (source_download_urls : List Download) (depends : List (String × String)) :
    BinaryPackage :=
  let fullversion := if revision = "" then version else version ++ "_" ++ revision
  { name := name, version := version, revision := revision,
    download_urls := download_urls, formula_download_url := formula_download_url,
    source_download_urls := source_download_urls, depends := depends,
    fullversion := fullversion, fqname := name ++ "@" ++ fullversion }

/-! ## Formula source-URL scanning -/

/-- The archive suffixes recognised by `get_formula_source_urls`. -/
def good_extensions : List String :=
  [".tar.gz", ".tar.xz", ".tar.bz2", ".zip"]

/-- Whether a URL ends in one of the recognised archive suffixes. -/
def goodExtension (url : String) : Bool :=
  good_extensions.any (fun e => pyEndsWith url e)

/-- One iteration of the `get_formula_source_urls` loop: extract the URL
declared on one formula line, if any. -/
def extractFormulaUrl (line : String) : Option String :=
  let line := pyTrim line
  if pyStartsWith line "url " then
    let url := pyPartitionAfter line "url \x22"
    let url := pyStripChars [' ', '\x22'] url
    if goodExtension url then some url else none
  else none

/-- `get_formula_source_urls`, with the formula file given as its lines. -/
def get_formula_source_urls (lines : List String) : List String :=
  lines.filterMap extractFormulaUrl

/-- `BinaryPackage.add_formula_source_download_urls`.  `known_urls` is
computed once, before the loop, and never extended while scanning; the
Python guard `if not dnl: continue` never fires because a constructed
`Download` object is always truthy, so every non-known scanned URL is
appended. -/
def BinaryPackage.add_formula_source_download_urls (p : BinaryPackage)
    (lines : List String) : BinaryPackage :=
  let known_urls := p.source_download_urls.map Download.url
  let new_downloads := (get_formula_source_urls lines).filterMap (fun url =>
    if known_urls.contains url then none
    else some (Download.make url none none))
  { p with source_download_urls := p.source_download_urls ++ new_downloads }

/-! ## Mach-O load-command rewriting -/

/-- The `get_updated_loader_path` changefunc inside `patchmacho`: a path
containing the Homebrew placeholder becomes loader-relative, any other
path yields `None`. -/
def get_updated_loader_path (loader_path : String) : Option String :=
  if pyContains loader_path "@@HOMEBREW_PREFIX@@" then
    some ("@loader_path/" ++ lastSegAfter '/' loader_path)
  else
    none

/-- Effect of `MachO.rewriteLoadCommands` (macholib) on one load-command
path: a changefunc result of `None` leaves the path unchanged. -/
def rewriteLoadCommandPath (loader_path : String) : String :=
  (get_updated_loader_path loader_path).getD loader_path

/-! ## Filesystem model

The script queries the filesystem through `os.path.exists`, `os.path.isdir`
and `os.listdir`; these are modelled as a record of pure query functions. -/

/-- Read-only view of the filesystem state. -/
structure FS where
  pathExists : String → Bool
  isDir : String → Bool
  listdir : String → List String

/-! ## check_installed_files -/

/-- Outcome of `check_installed_files`: success, the illegal-copy
exception (raised mid-loop), or the aggregated missing-files exception
carrying the package and every missing path. -/
inductive CheckResult where
  | ok
  | illegalCopy (src dst : String)
  | missingFiles (package : String) (paths : List String)
  deriving DecidableEq, Repr

/-- Whether a `CheckResult` is the illegal-copy exception. -/
def CheckResult.isIllegal : CheckResult → Bool
  | .illegalCopy _ _ => true
  | _ => false

/-- The loop of `check_installed_files`, with `missing` as the accumulated
list.  The four `if` statements of the body run in the script's order: the
`not dst_isdir` test (file to file) precedes the dir-to-file test, so a
pair with a trailing-slash source and a plain destination is handled as
file-to-file and the `raise` for illegal copies can never execute. -/
def checkLoop (fs : FS) (install_dir package : String) :
    List (String × String) → List String → CheckResult
  | [], missing => if missing.isEmpty then .ok else .missingFiles package missing
  | (src, dst) :: rest, missing =>
    let src_isdir := pyEndsWith src "/"
    let dst_isdir := pyEndsWith dst "/"
    let dst_loc := joinPath install_dir dst
    if dst_isdir && !src_isdir then
      let filename := lastSegAfter '/' src
      let dst_loc2 := joinPath dst_loc filename
      checkLoop fs install_dir package rest
        (if fs.pathExists dst_loc2 then missing else missing ++ [dst_loc2])
    else if dst_isdir && src_isdir then
      checkLoop fs install_dir package rest
        (if !fs.pathExists dst_loc then missing ++ [dst_loc]
         else if (fs.listdir dst_loc).isEmpty then missing ++ [dst_loc]
         else missing)
    else if !dst_isdir then
      checkLoop fs install_dir package rest
        (if fs.pathExists dst_loc then missing else missing ++ [dst_loc])
    else if src_isdir && !dst_isdir then
      .illegalCopy src dst
    else
      checkLoop fs install_dir package rest missing

/-- `check_installed_files(install_dir, copies, package)`. -/
def check_installed_files (fs : FS) (install_dir : String)
    (copies : List (String × String)) (package : String) : CheckResult :=
  checkLoop fs install_dir package copies []

/-- Expected missing artifact for one copy-plan entry, as the
specification words it (section 4.5): file to directory expects
`dst_dir/basename(src)` to exist, directory to directory expects the
destination directory to exist and be non-empty, file to file expects the
destination file to exist.  Used to compare `check_installed_files`
against the specification. -/
def specMissingArtifact (fs : FS) (install_dir : String) (e : String × String) :
    Option String :=
  let src := e.1
  let dst := e.2
  let dst_loc := joinPath install_dir dst
  if pyEndsWith dst "/" && !pyEndsWith src "/" then
    let artifact := joinPath dst_loc (lastSegAfter '/' src)
    if fs.pathExists artifact then none else some artifact
  else if pyEndsWith dst "/" && pyEndsWith src "/" then
    if fs.pathExists dst_loc && !(fs.listdir dst_loc).isEmpty then none
    else some dst_loc
  else
    if fs.pathExists dst_loc then none else some dst_loc

/-! ## install_files -/

/-- Filesystem mutation emitted by `install_files`: `copy_tree`,
`os.makedirs` and `shutil.copy2`. -/
inductive FsAction where
  | copyTree (src dst : String)
  | makedirs (path : String)
  | copy2 (src dst : String)
  deriving DecidableEq, Repr

/-- Body of the `install_files` loop for one `(src, dst)` pair: nothing
happens when the joined source path does not exist. -/
def installEntryActions (fs : FS) (extracted_dir install_dir : String)
    (e : String × String) : List FsAction :=
  let isdir := pyEndsWith e.2 "/"
  let src := joinPath extracted_dir e.1
  let dst := joinPath install_dir e.2
  if fs.pathExists src then
    if fs.isDir src then [.copyTree src dst]
    else
      [.makedirs (dirname dst)] ++ (if isdir then [.makedirs dst] else []) ++ [.copy2 src dst]
  else []

/-- The `install_files` loop over the copy plan. -/
def installLoop (fs : FS) (extracted_dir install_dir : String) :
    List (String × String) → List FsAction
  | [] => []
  | e :: rest =>
    installEntryActions fs extracted_dir install_dir e ++
      installLoop fs extracted_dir install_dir rest

/-- The default copy plan of `install_files`. -/
def default_copies : List (String × String) :=
  [("lib", "lib"), ("bin", "bin"), ("share", "licenses")]

/-- `install_files`: a falsy `copies` argument falls back to the default
plan, then the loop runs. -/
def install_files (fs : FS) (extracted_dir install_dir : String)
    (copies : List (String × String)) : List FsAction :=
  installLoop fs extracted_dir install_dir
    (if copies.isEmpty then default_copies else copies)

/-! ## Dependency resolution -/

/-- Python dict access `binary_packages[name]` over an insertion-ordered
mapping represented as an association list. -/
def lookupName : List (String × BinaryPackage) → String → Option BinaryPackage
  | [], _ => none
  | (k, v) :: rest, n => if k = n then some v else lookupName rest n

/-- The dependency lookup of `get_all_dependents`: exact name first, then
the `name + "-git"` fallback of the `except KeyError` handler. -/
def lookupDep (bps : List (String × BinaryPackage)) (n : String) :
    Option BinaryPackage :=
  match lookupName bps n with
  | some p => some p
  | none => lookupName bps (n ++ "-git")

/-- Outcome of a `get_all_dependents` traversal: ran out of recursion
fuel (models the unbounded recursion of the Python generator), an
uncaught `KeyError` on the named key, or the yielded package list. -/
inductive DepResult where
  | fuelOut
  | keyError (name : String)
  | ok (pkgs : List BinaryPackage)
  deriving DecidableEq, Repr

/-- The per-dependency loop of `get_all_dependents`: skip names in
`ignore_deps`, look the dependency up (with the `-git` fallback), yield
it, then yield its own recursive dependents before the next sibling.
`recur` is the recursive call at one less fuel. -/
def goDeps (recur : BinaryPackage → DepResult)
    (bps : List (String × BinaryPackage)) (ignore_deps : List String) :
    List (String × String) → DepResult
  | [] => .ok []
  | (dep_name, _) :: rest =>
    if ignore_deps.contains dep_name then goDeps recur bps ignore_deps rest
    else
      match lookupDep bps dep_name with
      | none => .keyError (dep_name ++ "-git")
      | some depp =>
        match recur depp with
        | .ok sub =>
          match goDeps recur bps ignore_deps rest with
          | .ok tl => .ok (depp :: (sub ++ tl))
          | e => e
        | e => e

/-- `BinaryPackage.get_all_dependents`, with explicit recursion fuel.  The
Python code has no cycle guard, so its recursion depth is unbounded on
cyclic graphs; exhausting the fuel models that. -/
def get_all_dependents (bps : List (String × BinaryPackage))
    (ignore_deps : List String) : Nat → BinaryPackage → DepResult
  | 0, _ => .fuelOut
  | fuel + 1, p => goDeps (get_all_dependents bps ignore_deps fuel) bps ignore_deps p.depends

/-- The deduplication of `get_unique_dependents`: an insertion-ordered
dict keyed by package name keeps the first-encountered package per name. -/
def dedupByName : List BinaryPackage → List String → List BinaryPackage
  | [], _ => []
  | p :: rest, seen =>
    if seen.contains p.name then dedupByName rest seen
    else p :: dedupByName rest (p.name :: seen)

/-- `BinaryPackage.get_unique_dependents`. -/
def get_unique_dependents (bps : List (String × BinaryPackage))
    (ignore_deps : List String) (fuel : Nat) (p : BinaryPackage) : DepResult :=
  match get_all_dependents bps ignore_deps fuel p with
  | .ok deps => .ok (dedupByName deps [])
  | e => e

/-- A traversable dependency edge: a declared dependency name that is not
ignored and resolves in the index (directly or through the `-git`
fallback). -/
def DepEdge (bps : List (String × BinaryPackage)) (ignore_deps : List String)
    (p q : BinaryPackage) : Prop :=
  ∃ dn dv, (dn, dv) ∈ p.depends ∧ ignore_deps.contains dn = false ∧
    lookupDep bps dn = some q

/-- Transitive reachability through traversable dependency edges. -/
inductive Reaches (bps : List (String × BinaryPackage)) (ignore_deps : List String) :
    BinaryPackage → BinaryPackage → Prop where
  | single : ∀ {p q}, DepEdge bps ignore_deps p q → Reaches bps ignore_deps p q
  | head : ∀ {p q r}, DepEdge bps ignore_deps p q → Reaches bps ignore_deps q r →
      Reaches bps ignore_deps p r

/-- Executable acyclicity certificate for one package: every non-ignored
dependency resolves and strictly decreases the rank `r`. -/
def goodPkgB (bps : List (String × BinaryPackage)) (ignore_deps : List String)
    (r : String → Nat) (p : BinaryPackage) : Bool :=
  p.depends.all fun d =>
    ignore_deps.contains d.1 ||
      match lookupDep bps d.1 with
      | some q => decide (r q.name < r p.name)
      | none => false

/-! ## Repository and index parsing -/

/-- The `urls.stable` object of one index record. -/
structure UrlSpec where
  url : String
  tag : Option String
  revision : Option String
  deriving DecidableEq, Repr

/-- One `bottle.stable.files` entry of an index record. -/
structure BottleEntry where
  osarch : String
  url : String
  sha256 : String
  deriving DecidableEq, Repr

/-- One record of the fetched JSON package index.  A field is `none` when
the key is absent (or null), in which case `BinaryPackage.from_index`
raises and the record is skipped. -/
structure IndexItem where
  name : Option String
  versions_stable : Option String
  revision : Option Nat
  urls_stable : Option UrlSpec
  bottle_stable_files : Option (List BottleEntry)
  dependencies : Option (List String)
  deriving DecidableEq, Repr

/-- The `Download` carried by a successful `from_index` call; an
`assertError` is the raised exception (so the enclosing package parse
fails), and the unreachable `noDownload` is mapped to a parse failure as
well. -/
def FromIndexResult.asParsed : FromIndexResult → Option Download
  | .dl d => some d
  | _ => none

/-- A repository (`class Repository`) with its lazily populated package
mapping. -/
structure Repository where
  name : String
  db_url : String
  formula_base_url : String
  packages : List (String × BinaryPackage)
  deriving DecidableEq, Repr

/-- Python dict assignment `m[k] = v` over an insertion-ordered mapping:
replace in place when the key exists, append otherwise. -/
def assocSet (l : List (String × BinaryPackage)) (k : String) (v : BinaryPackage) :
    List (String × BinaryPackage) :=
  match l with
  | [] => [(k, v)]
  | (k', v') :: rest => if k' = k then (k, v) :: rest else (k', v') :: assocSet rest k v

/-- `BinaryPackage.from_index(item, repo)`: `none` models the record
raising (and being skipped by the caller's `except` handler). -/
def BinaryPackage.from_index (item : IndexItem) (repoName formulaBase : String) :
    Option BinaryPackage := do
  let name ← item.name
  let version ← item.versions_stable
  let rev ← item.revision
  let revision := if rev = 0 then "" else toString rev
  let formula_download_url := Download.make (strFormat formulaBase name) none none
  let source_url ← item.urls_stable
  let sdu ← (Download.from_index source_url.url source_url.tag source_url.revision
      none).asParsed
  let files ← item.bottle_stable_files
  let download_urls := files.filterMap fun f =>
    if pyContains f.url repoName then
      some (f.osarch, Download.make f.url none (some f.sha256))
    else none
  let deps ← item.dependencies
  let depends := deps.map fun d =>
    let (bef, aft) := pyPartitionChar '@' d.data
    (String.mk bef, String.mk aft)
  some (BinaryPackage.make name version revision download_urls formula_download_url
    [sdu] depends)

/-- `Repository.update_packages_index`, with the fetched and JSON-decoded
index passed in as `items` (the fetch itself is the external Fetcher
capability).  Returns the updated repository, the returned mapping, and
whether an index fetch was performed. -/
def Repository.update_packages_index (repo : Repository) (items : List IndexItem) :
    Repository × List (String × BinaryPackage) × Bool :=
  if !repo.packages.isEmpty then (repo, repo.packages, false)
  else
    let pkgs := items.foldl (fun acc item =>
      match BinaryPackage.from_index item repo.name repo.formula_base_url with
      | some b => assocSet acc b.name b
      | none => acc) []
    ({ repo with packages := pkgs }, pkgs, true)

/-! ## Concrete fixtures -/

/-- A placeholder download used to build concrete packages. -/
def dummyDownload : Download :=
  Download.make "https://example.org/formula.rb" none none

/-- A package named `a` that depends on itself: the smallest cyclic graph. -/
def cycA : BinaryPackage :=
  BinaryPackage.make "a" "1" "" [] dummyDownload [] [("a", "")]

/-- Index containing only the self-dependent package `a`. -/
def cycIdx : List (String × BinaryPackage) := [("a", cycA)]

/-- A dependency-free package named `x-git`, stored under the key the
`-git` fallback probes. -/
def cexXgit : BinaryPackage :=
  BinaryPackage.make "x-git" "1" "" [] dummyDownload [] []

/-- A root package depending on `x`, which only resolves through the
`x-git` fallback. -/
def cexRoot : BinaryPackage :=
  BinaryPackage.make "root" "1" "" [] dummyDownload [] [("x", "")]

/-- Index for the ignore-list counterexample. -/
def cexIdx : List (String × BinaryPackage) := [("x-git", cexXgit)]

/-- Rank function witnessing that `cexIdx` is acyclic from `cexRoot`. -/
def cexRank (s : String) : Nat := if s = "root" then 1 else 0

/-- Dependency-free package `b` for the resolver witness. -/
def wPkgB : BinaryPackage :=
  BinaryPackage.make "b" "1" "" [] dummyDownload [] []

/-- Package `a` depending on `b`, for the resolver witness. -/
def wPkgA : BinaryPackage :=
  BinaryPackage.make "a" "1" "" [] dummyDownload [] [("b", "")]

/-- Root package `r` depending on `a` and `b`, for the resolver witness. -/
def wPkgR : BinaryPackage :=
  BinaryPackage.make "r" "1" "" [] dummyDownload [] [("a", ""), ("b", "")]

/-- Acyclic two-package index for the resolver witness. -/
def wIdx : List (String × BinaryPackage) := [("a", wPkgA), ("b", wPkgB)]

/-- Rank function witnessing that `wIdx` is acyclic from `wPkgR`. -/
def wRank (s : String) : Nat :=
  if s = "r" then 2 else if s = "a" then 1 else 0

/-- A filesystem on which every path exists. -/
def fsAllPaths : FS :=
  { pathExists := fun _ => true, isDir := fun _ => false, listdir := fun _ => ["f"] }

/-- A filesystem on which no path exists. -/
def fsNoPaths : FS :=
  { pathExists := fun _ => false, isDir := fun _ => false, listdir := fun _ => [] }

/-- Copy plan exercising all three legal shapes for the validator witness. -/
def wPlan : List (String × String) :=
  [("src/f", "dst/"), ("g", "h"), ("d/", "dd/")]

/-- A package with no source downloads yet, for the formula-scan claims. -/
def pkg0 : BinaryPackage :=
  BinaryPackage.make "p" "1" "" [] dummyDownload [] []

/-- The same archive URL declared on two formula lines. -/
def dupLines : List String :=
  ["url \x22https://e.x/a.tar.gz\x22", "url \x22https://e.x/a.tar.gz\x22"]

/-- A one-package repository whose mapping is already populated. -/
def wRepo : Repository :=
  { name := "linuxbrew",
    db_url := "https://formulae.brew.sh/api/formula-linux.json",
    formula_base_url := "https://raw.githubusercontent.com/Homebrew/linuxbrew-core/master/Formula/",
    packages := [("b", wPkgB)] }

/-! ## Lemmas about check_installed_files -/

/-- The illegal-copy `raise` of `check_installed_files` is unreachable:
its guard needs `not dst_isdir` after the earlier `if not dst_isdir`
already took its branch. -/
theorem checkLoop_never_illegal (fs : FS) (install_dir package : String) :
    ∀ copies missing,
      (checkLoop fs install_dir package copies missing).isIllegal = false := by
  intro copies
  induction copies with
  | nil =>
    intro missing
    simp only [checkLoop]
    split <;> rfl
  | cons e rest ih =>
    intro missing
    obtain ⟨src, dst⟩ := e
    cases hs : pyEndsWith src "/" <;> cases hd : pyEndsWith dst "/" <;>
      simp [checkLoop, hs, hd, ih]

/-- Shifting one copy-plan entry's expected artifact from the spec list
into the accumulator leaves the aggregated validation outcome unchanged. -/
theorem spec_if_cons (fs : FS) (install_dir package : String)
    (e : String × String) (rest : List (String × String)) (missing : List String) :
    (if (missing ++ List.filterMap (specMissingArtifact fs install_dir) (e :: rest)).isEmpty
      then CheckResult.ok
      else .missingFiles package
        (missing ++ List.filterMap (specMissingArtifact fs install_dir) (e :: rest)))
    =
    (if ((missing ++ (specMissingArtifact fs install_dir e).toList) ++
          List.filterMap (specMissingArtifact fs install_dir) rest).isEmpty
      then CheckResult.ok
      else .missingFiles package
        ((missing ++ (specMissingArtifact fs install_dir e).toList) ++
          List.filterMap (specMissingArtifact fs install_dir) rest)) := by
  rw [List.filterMap_cons, List.append_assoc]
  cases specMissingArtifact fs install_dir e <;> simp

/-- `checkLoop` computes exactly the specification's aggregated missing
list, appended to the accumulator, as long as the plan contains no
dir-to-file entry. -/
theorem checkLoop_eq_spec (fs : FS) (install_dir package : String) :
    ∀ copies missing,
      (∀ e ∈ copies, (pyEndsWith e.1 "/" && !pyEndsWith e.2 "/") = false) →
      checkLoop fs install_dir package copies missing =
        (if (missing ++ copies.filterMap (specMissingArtifact fs install_dir)).isEmpty
          then CheckResult.ok
          else .missingFiles package
            (missing ++ copies.filterMap (specMissingArtifact fs install_dir))) := by
  intro copies
  induction copies with
  | nil =>
    intro missing _
    simp [checkLoop]
  | cons e rest ih =>
    intro missing h
    obtain ⟨src, dst⟩ := e
    have hself := h (src, dst) (List.mem_cons_self _ _)
    have hrest := fun e he => h e (List.mem_cons_of_mem _ he)
    rw [spec_if_cons]
    have step : checkLoop fs install_dir package ((src, dst) :: rest) missing =
        checkLoop fs install_dir package rest
          (missing ++ (specMissingArtifact fs install_dir (src, dst)).toList) := by
      cases hs : pyEndsWith src "/" <;> cases hd : pyEndsWith dst "/"
      · cases hex : fs.pathExists (joinPath install_dir dst) <;>
          simp [checkLoop, specMissingArtifact, hs, hd, hex]
      · cases hex :
          fs.pathExists (joinPath (joinPath install_dir dst) (lastSegAfter '/' src)) <;>
          simp [checkLoop, specMissingArtifact, hs, hd, hex]
      · rw [hs, hd] at hself
        simp at hself
      · cases hex : fs.pathExists (joinPath install_dir dst)
        · simp [checkLoop, specMissingArtifact, hs, hd, hex]
        · cases hld : (fs.listdir (joinPath install_dir dst)).isEmpty <;>
            simp [checkLoop, specMissingArtifact, hs, hd, hex, hld]
    rw [step, ih _ hrest]

/-! ## Claim C2 -/

/-- C2: a copy-plan entry whose source ends with the separator and whose
destination does not (directory-to-file shape) does NOT raise the
illegal-copy error.  The script's `if not dst_isdir` branch classifies it
as file-to-file first, so the dir-to-file `raise` is unreachable: on a
filesystem where the destination exists the check succeeds, on one where
it does not the aggregated missing-files error is raised instead, and no
plan whatsoever can produce the illegal-copy outcome. -/
theorem c2_dir_to_file_never_raises_illegal :
    check_installed_files fsAllPaths "inst" [("a/", "b")] "pkg" = .ok ∧
    check_installed_files fsNoPaths "inst" [("a/", "b")] "pkg" =
      .missingFiles "pkg" ["inst/b"] ∧
    ∀ fs install_dir copies package,
      (check_installed_files fs install_dir copies package).isIllegal = false := by
  refine ⟨by decide, by decide, ?_⟩
  intro fs install_dir copies package
  exact checkLoop_never_illegal fs install_dir package copies []

/-! ## Claim C6 -/

/-- C6: for a copy plan with no dir-to-file entry, `check_installed_files`
evaluates every entry against its expected artifact (file-to-file: the
destination file; file-to-directory: destination dir joined with the
source's basename; directory-to-directory: existing non-empty destination
directory) and either succeeds or raises exactly one aggregated error
carrying every missing path in plan order. -/
theorem c6_validator_aggregates_all_misses :
    ∀ fs install_dir copies package,
      (∀ e ∈ copies, (pyEndsWith e.1 "/" && !pyEndsWith e.2 "/") = false) →
      check_installed_files fs install_dir copies package =
        (if (copies.filterMap (specMissingArtifact fs install_dir)).isEmpty
          then CheckResult.ok
          else .missingFiles package
            (copies.filterMap (specMissingArtifact fs install_dir))) := by
  intro fs install_dir copies package h
  have := checkLoop_eq_spec fs install_dir package copies [] h
  simpa [check_installed_files] using this

/-- Witness for C6 on a concrete three-entry plan covering each legal
shape, a filesystem on which nothing exists, so all three expected
artifacts are reported in one aggregated error. -/
theorem c6_validator_aggregates_all_misses_witness :
    check_installed_files fsNoPaths "inst" wPlan "pkg" =
      .missingFiles "pkg" ["inst/dst/f", "inst/h", "inst/dd/"] :=
  (c6_validator_aggregates_all_misses fsNoPaths "inst" wPlan "pkg" (by decide)).trans
    (by decide)

/-! ## Claim C3 -/

/-- C3: `Download.from_index` on a bare github URL with neither tag nor
revision does NOT yield "no download": the first early return fires for
every call with falsy tag and revision and produces a `Download` carrying
the raw URL, so the later `return` with no value is unreachable for every
input. -/
theorem c3_bare_github_url_still_yields_download :
    Download.from_index "https://github.com/x/y.git" none none none =
      .dl { url := "https://github.com/x/y.git", file_name := "y.git", sha256 := none } ∧
    ∀ url tag revision sha256,
      (Download.from_index url tag revision sha256).isNoDownload = false := by
  refine ⟨by decide, ?_⟩
  intro url tag revision sha256
  unfold Download.from_index
  cases h : (!truthyStr tag && !truthyStr revision)
  · cases hgh : pyStartsWith (stripSlashes url) "https://github.com" <;>
      simp [h, hgh, FromIndexResult.isNoDownload]
  · simp [h, FromIndexResult.isNoDownload]

/-! ## Claim C7 -/

/-- C7: on a source-control-shaped record, `from_index` rewrites the
github URL into an archive download (concretely checked on the claim's
example), and whenever `revision` is truthy the result does not depend on
`tag` at all, i.e. the revision is preferred as the commit-ish. -/
theorem c7_source_control_rewrite :
    Download.from_index "https://github.com/x/y.git" none (some "abc123") none =
      .dl { url := "https://github.com/x/y/archive/abc123.tar.gz",
            file_name := "y-abc123.tar.gz", sha256 := none } ∧
    ∀ url tag revision sha256, truthyStr revision = true →
      Download.from_index url tag revision sha256 =
        Download.from_index url none revision sha256 := by
  refine ⟨by decide, ?_⟩
  intro url tag revision sha256 h
  unfold Download.from_index
  simp only [h, Bool.not_true, Bool.and_false]
  simp [truthyStr]

/-- Witness for C7: with both a tag and a truthy revision present the
result equals the tag-free call, at a concrete input. -/
theorem c7_source_control_rewrite_witness :
    truthyStr (some "deadbeef") = true ∧
    Download.from_index "https://github.com/a/b.git" (some "v9") (some "deadbeef") none =
      Download.from_index "https://github.com/a/b.git" none (some "deadbeef") none :=
  ⟨by decide,
   c7_source_control_rewrite.2 "https://github.com/a/b.git" (some "v9")
     (some "deadbeef") none (by decide)⟩

/-! ## Claim C8 -/

/-- C8: the Mach-O changefunc maps every load-command path containing the
Homebrew placeholder to `@loader_path/` followed by the path's final
segment, and leaves every other path unchanged; concretely checked on both
paths named by the claim. -/
theorem c8_loader_path_rewrite :
    (∀ s, pyContains s "@@HOMEBREW_PREFIX@@" = true →
      rewriteLoadCommandPath s = "@loader_path/" ++ lastSegAfter '/' s) ∧
    (∀ s, pyContains s "@@HOMEBREW_PREFIX@@" = false →
      rewriteLoadCommandPath s = s) ∧
    rewriteLoadCommandPath "@@HOMEBREW_PREFIX@@/opt/xz/lib/liblzma.5.dylib" =
      "@loader_path/liblzma.5.dylib" ∧
    rewriteLoadCommandPath "/usr/lib/libSystem.B.dylib" = "/usr/lib/libSystem.B.dylib" := by
  refine ⟨?_, ?_, by decide, by decide⟩ <;>
    intro s h <;> simp [rewriteLoadCommandPath, get_updated_loader_path, h]

/-- Witness for C8 at a concrete placeholder-bearing path. -/
theorem c8_loader_path_rewrite_witness :
    pyContains "@@HOMEBREW_PREFIX@@/lib/libzstd.1.dylib" "@@HOMEBREW_PREFIX@@" = true ∧
    rewriteLoadCommandPath "@@HOMEBREW_PREFIX@@/lib/libzstd.1.dylib" =
      "@loader_path/" ++ lastSegAfter '/' "@@HOMEBREW_PREFIX@@/lib/libzstd.1.dylib" :=
  ⟨by decide, c8_loader_path_rewrite.1 "@@HOMEBREW_PREFIX@@/lib/libzstd.1.dylib" (by decide)⟩

/-! ## Claim C10 -/

/-- C10: a copy-plan pair whose joined source path does not exist
contributes no filesystem action at all (no copy, no directory creation,
and the loop has no raising path), so the whole plan behaves as if such
pairs were filtered out. -/
theorem c10_missing_source_silently_skipped :
    (∀ fs extracted_dir install_dir e,
      fs.pathExists (joinPath extracted_dir e.1) = false →
      installEntryActions fs extracted_dir install_dir e = []) ∧
    (∀ fs extracted_dir install_dir copies,
      installLoop fs extracted_dir install_dir
          (copies.filter fun e => fs.pathExists (joinPath extracted_dir e.1)) =
        installLoop fs extracted_dir install_dir copies) := by
  have h1 : ∀ (fs : FS) extracted_dir install_dir (e : String × String),
      fs.pathExists (joinPath extracted_dir e.1) = false →
      installEntryActions fs extracted_dir install_dir e = [] := by
    intro fs extracted_dir install_dir e h
    simp [installEntryActions, h]
  refine ⟨h1, ?_⟩
  intro fs extracted_dir install_dir copies
  induction copies with
  | nil => rfl
  | cons e rest ih =>
    cases h : fs.pathExists (joinPath extracted_dir e.1)
    · simp [List.filter_cons, h, installLoop, ih, h1 fs extracted_dir install_dir e h]
    · simp [List.filter_cons, h, installLoop, ih]

/-- Witness for C10 at a concrete pair whose source is absent. -/
theorem c10_missing_source_silently_skipped_witness :
    fsNoPaths.pathExists (joinPath "ext" "x") = false ∧
    installEntryActions fsNoPaths "ext" "inst" ("x", "y") = [] :=
  ⟨by decide,
   c10_missing_source_silently_skipped.1 fsNoPaths "ext" "inst" ("x", "y") (by decide)⟩

/-! ## Claim C5 -/

/-- C5: once any `update_packages_index` call has left the package mapping
non-empty, every later call on the resulting repository returns that same
repository and mapping unchanged and performs no further index fetch. -/
theorem c5_index_populated_at_most_once :
    ∀ (repo : Repository) (items items' : List IndexItem),
      ((repo.update_packages_index items).1).packages ≠ [] →
      (repo.update_packages_index items).1.update_packages_index items' =
        ((repo.update_packages_index items).1,
         ((repo.update_packages_index items).1).packages, false) := by
  intro repo items items' h
  set r := (repo.update_packages_index items).1 with hr
  have hem : r.packages.isEmpty = false := by
    cases hp : r.packages
    · exact absurd hp h
    · rfl
  unfold Repository.update_packages_index
  simp [hem]

/-- Witness for C5: a populated one-package repository is returned
unchanged, with no fetch, by a second call. -/
theorem c5_index_populated_at_most_once_witness :
    (wRepo.update_packages_index []).1.update_packages_index [] =
      ((wRepo.update_packages_index []).1,
       ((wRepo.update_packages_index []).1).packages, false) :=
  c5_index_populated_at_most_once wRepo [] [] (by decide)

/-! ## Claim C9 -/

/-- Turning the filterMap with an inline skip-test into a filter followed
by a map. -/
theorem filterMap_skip_eq_filter_map {α β : Type} (c : α → Bool) (f : α → β)
    (l : List α) :
    l.filterMap (fun a => if c a then none else some (f a)) =
      (l.filter fun a => !c a).map f := by
  induction l with
  | nil => rfl
  | cons a rest ih => cases h : c a <;> simp [List.filterMap_cons, List.filter_cons, h, ih]

/-- C9 (amended): scanning a formula registers, after the pre-existing
downloads and in line order, one `Download` per scanned archive-suffixed
URL that is not among the package's pre-scan source-download URLs — the
known-URL set is computed before the loop and never updated, so
deduplication happens only against the pre-scan list — and every scanned
URL ends in one of the four recognised archive suffixes. -/
theorem c9_formula_scan_amended :
    (∀ (p : BinaryPackage) lines,
      (p.add_formula_source_download_urls lines).source_download_urls =
        p.source_download_urls ++
          ((get_formula_source_urls lines).filter
              (fun u => !(p.source_download_urls.map Download.url).contains u)).map
            (fun u => Download.make u none none)) ∧
    (∀ lines u, u ∈ get_formula_source_urls lines → goodExtension u = true) := by
  constructor
  · intro p lines
    have heq := filterMap_skip_eq_filter_map
      (fun u => (p.source_download_urls.map Download.url).contains u)
      (fun u => Download.make u none none) (get_formula_source_urls lines)
    simp only [BinaryPackage.add_formula_source_download_urls]
    rw [heq]
  · intro lines u hu
    obtain ⟨line, _, h⟩ := List.mem_filterMap.mp hu
    simp only [extractFormulaUrl] at h
    split at h
    · split at h
      · cases h
        assumption
      · cases h
    · cases h

/-- Witness for C9 at the concrete duplicate-line formula. -/
theorem c9_formula_scan_amended_witness :
    "https://e.x/a.tar.gz" ∈ get_formula_source_urls dupLines ∧
    goodExtension "https://e.x/a.tar.gz" = true :=
  ⟨by decide, c9_formula_scan_amended.2 dupLines "https://e.x/a.tar.gz" (by decide)⟩

/-- Counterexample for C9 as frozen: the same archive URL on two lines of
one formula file is appended twice, so the post-scan source-download list
is NOT deduplicated by URL. -/
theorem c9_counterexample :
    (pkg0.add_formula_source_download_urls dupLines).source_download_urls.map Download.url =
      ["https://e.x/a.tar.gz", "https://e.x/a.tar.gz"] := by decide

/-! ## Claim C4 -/

/-- On the one-package cyclic index, every amount of recursion fuel is
exhausted: the traversal never completes. -/
theorem cyc_fuelOut : ∀ n, get_all_dependents cycIdx [] n cycA = .fuelOut := by
  intro n
  induction n with
  | zero => rfl
  | succ n ih =>
    have ih' : get_all_dependents [("a", cycA)] [] n cycA = .fuelOut := ih
    show goDeps (get_all_dependents cycIdx [] n) cycIdx [] cycA.depends = .fuelOut
    have hd : cycA.depends = [("a", "")] := rfl
    rw [hd]
    simp [goDeps, lookupDep, lookupName, cycIdx, ih']

/-- C4: the code has no cycle guard.  On an index whose dependency graph
has a (self-)cycle reachable from the root, `get_all_dependents` exhausts
every recursion bound — it never terminates with any result, let alone a
"dependency cycle detected" error, which does not exist anywhere in the
script. -/
theorem c4_no_cycle_guard :
    DepEdge cycIdx [] cycA cycA ∧
    ∀ n, get_all_dependents cycIdx [] n cycA = .fuelOut :=
  ⟨⟨"a", "", by decide, by decide, by decide⟩, cyc_fuelOut⟩

/-! ## Lemmas about the dependency traversal -/

/-- A successful exact lookup returns an entry of the index. -/
theorem lookupName_mem : ∀ (bps : List (String × BinaryPackage)) n q,
    lookupName bps n = some q → (n, q) ∈ bps := by
  intro bps
  induction bps with
  | nil => intro n q h; cases h
  | cons e rest ih =>
    intro n q h
    obtain ⟨k, v⟩ := e
    by_cases hk : k = n
    · subst hk
      simp only [lookupName, if_pos rfl] at h
      cases h
      exact List.mem_cons_self _ _
    · simp only [lookupName, if_neg hk] at h
      exact List.mem_cons_of_mem _ (ih n q h)

/-- A successful dependency lookup (with the `-git` fallback) returns a
package stored in the index. -/
theorem lookupDep_mem (bps : List (String × BinaryPackage)) (n : String)
    (q : BinaryPackage) (h : lookupDep bps n = some q) : ∃ k, (k, q) ∈ bps := by
  unfold lookupDep at h
  cases hl : lookupName bps n with
  | some p =>
    rw [hl] at h
    cases h
    exact ⟨n, lookupName_mem _ _ _ hl⟩
  | none =>
    rw [hl] at h
    exact ⟨n ++ "-git", lookupName_mem _ _ _ h⟩

/-- In an index with no duplicate keys, a key determines its entry. -/
theorem assoc_key_unique : ∀ (bps : List (String × BinaryPackage)) k a b,
    (bps.map Prod.fst).Nodup → (k, a) ∈ bps → (k, b) ∈ bps → a = b := by
  intro bps
  induction bps with
  | nil => intro k a b _ ha; cases ha
  | cons e rest ih =>
    intro k a b hnd ha hb
    obtain ⟨k', v'⟩ := e
    rw [List.map_cons, List.nodup_cons] at hnd
    rcases List.mem_cons.mp ha with ha' | ha' <;> rcases List.mem_cons.mp hb with hb' | hb'
    · rw [Prod.mk.injEq] at ha' hb'
      rw [ha'.2, hb'.2]
    · exfalso
      apply hnd.1
      rw [Prod.mk.injEq] at ha'
      rw [← ha'.1]
      exact List.mem_map.mpr ⟨(k, b), hb', rfl⟩
    · exfalso
      apply hnd.1
      rw [Prod.mk.injEq] at hb'
      rw [← hb'.1]
      exact List.mem_map.mpr ⟨(k, a), ha', rfl⟩
    · exact ih k a b hnd.2 ha' hb'

/-- In a well-formed index (no duplicate keys, each package stored under
its own name), two stored packages with the same name are equal. -/
theorem index_name_unique (bps : List (String × BinaryPackage))
    (hk : (bps.map Prod.fst).Nodup) (hn : ∀ e ∈ bps, (e.2).name = e.1)
    (q1 q2 : BinaryPackage) (h1 : ∃ k, (k, q1) ∈ bps) (h2 : ∃ k, (k, q2) ∈ bps)
    (hname : q1.name = q2.name) : q1 = q2 := by
  obtain ⟨k1, h1⟩ := h1
  obtain ⟨k2, h2⟩ := h2
  have e1 : q1.name = k1 := hn _ h1
  have e2 : q2.name = k2 := hn _ h2
  have hkk : k1 = k2 := by rw [← e1, ← e2, hname]
  subst hkk
  exact assoc_key_unique bps k1 q1 q2 hk h1 h2

/-- Every member of a successful `goDeps` result is either a directly
looked-up dependency of the processed list or a member of such a
dependency's recursive result. -/
theorem goDeps_ok_mem (recur : BinaryPackage → DepResult)
    (bps : List (String × BinaryPackage)) (ig : List String) :
    ∀ deps l, goDeps recur bps ig deps = .ok l → ∀ q ∈ l,
      ∃ dn dv depp, (dn, dv) ∈ deps ∧ ig.contains dn = false ∧
        lookupDep bps dn = some depp ∧
        (q = depp ∨ ∃ sub, recur depp = .ok sub ∧ q ∈ sub) := by
  intro deps
  induction deps with
  | nil =>
    intro l h q hq
    cases h
    cases hq
  | cons d rest ih =>
    intro l h q hq
    obtain ⟨dn, dv⟩ := d
    by_cases hig : dn ∈ ig
    · have h' : goDeps recur bps ig rest = .ok l := by
        simpa [goDeps, hig] using h
      obtain ⟨dn', dv', depp', hm, hnig, hlk', hor⟩ := ih l h' q hq
      exact ⟨dn', dv', depp', List.mem_cons_of_mem _ hm, hnig, hlk', hor⟩
    · have hig' : ig.contains dn = false := by simpa using hig
      cases hlk : lookupDep bps dn with
      | none => simp [goDeps, hig, hlk] at h
      | some depp =>
        cases hrec : recur depp with
        | fuelOut => simp [goDeps, hig, hlk, hrec] at h
        | keyError s => simp [goDeps, hig, hlk, hrec] at h
        | ok sub =>
          cases hrest : goDeps recur bps ig rest with
          | fuelOut => simp [goDeps, hig, hlk, hrec, hrest] at h
          | keyError s => simp [goDeps, hig, hlk, hrec, hrest] at h
          | ok tl =>
            have hl : l = depp :: (sub ++ tl) := by
              have := h
              simp [goDeps, hig, hlk, hrec, hrest] at this
              exact this.symm
            subst hl
            rcases List.mem_cons.mp hq with rfl | hq'
            · exact ⟨dn, dv, q, List.mem_cons_self _ _, hig', hlk, Or.inl rfl⟩
            · rcases List.mem_append.mp hq' with hsub | htl
              · exact ⟨dn, dv, depp, List.mem_cons_self _ _, hig', hlk,
                  Or.inr ⟨sub, hrec, hsub⟩⟩
              · obtain ⟨dn', dv', depp', hm, hnig, hlk', hor⟩ := ih tl hrest q htl
                exact ⟨dn', dv', depp', List.mem_cons_of_mem _ hm, hnig, hlk', hor⟩

/-- Conversely, every non-ignored, resolvable dependency of a list that
`goDeps` processes successfully is in the result, together with its whole
recursive result. -/
theorem goDeps_ok_edge (recur : BinaryPackage → DepResult)
    (bps : List (String × BinaryPackage)) (ig : List String) :
    ∀ deps l dn dv depp, goDeps recur bps ig deps = .ok l →
      (dn, dv) ∈ deps → ig.contains dn = false → lookupDep bps dn = some depp →
      depp ∈ l ∧ ∃ sub, recur depp = .ok sub ∧ ∀ x ∈ sub, x ∈ l := by
  intro deps
  induction deps with
  | nil =>
    intro l dn dv depp _ hm
    cases hm
  | cons d rest ih =>
    intro l dn dv depp h hm hnig hlk
    obtain ⟨dn0, dv0⟩ := d
    by_cases hig : dn0 ∈ ig
    · have h' : goDeps recur bps ig rest = .ok l := by
        simpa [goDeps, hig] using h
      rcases List.mem_cons.mp hm with heq | hm'
      · rw [Prod.mk.injEq] at heq
        obtain ⟨rfl, rfl⟩ := heq
        have : dn ∉ ig := by simpa using hnig
        exact absurd hig this
      · exact ih l dn dv depp h' hm' hnig hlk
    · cases hlk0 : lookupDep bps dn0 with
      | none => simp [goDeps, hig, hlk0] at h
      | some depp0 =>
        cases hrec : recur depp0 with
        | fuelOut => simp [goDeps, hig, hlk0, hrec] at h
        | keyError s => simp [goDeps, hig, hlk0, hrec] at h
        | ok sub0 =>
          cases hrest : goDeps recur bps ig rest with
          | fuelOut => simp [goDeps, hig, hlk0, hrec, hrest] at h
          | keyError s => simp [goDeps, hig, hlk0, hrec, hrest] at h
          | ok tl =>
            have hl : l = depp0 :: (sub0 ++ tl) := by
              have := h
              simp [goDeps, hig, hlk0, hrec, hrest] at this
              exact this.symm
            subst hl
            rcases List.mem_cons.mp hm with heq | hm'
            · rw [Prod.mk.injEq] at heq
              obtain ⟨rfl, rfl⟩ := heq
              rw [hlk0] at hlk
              cases hlk
              exact ⟨List.mem_cons_self _ _,
                sub0, hrec, fun x hx =>
                  List.mem_cons_of_mem _ (List.mem_append.mpr (Or.inl hx))⟩
            · obtain ⟨hin, sub, hs, hsubin⟩ := ih tl dn dv depp hrest hm' hnig hlk
              exact ⟨List.mem_cons_of_mem _ (List.mem_append.mpr (Or.inr hin)),
                sub, hs, fun x hx =>
                  List.mem_cons_of_mem _ (List.mem_append.mpr (Or.inr (hsubin x hx)))⟩

/-- Soundness: every member of a successful traversal result is reachable
from the root through traversable edges. -/
theorem get_all_mem_reaches (bps : List (String × BinaryPackage)) (ig : List String) :
    ∀ fuel p l, get_all_dependents bps ig fuel p = .ok l →
      ∀ q ∈ l, Reaches bps ig p q := by
  intro fuel
  induction fuel with
  | zero => intro p l h; cases h
  | succ n ih =>
    intro p l h q hq
    have h' : goDeps (get_all_dependents bps ig n) bps ig p.depends = .ok l := h
    obtain ⟨dn, dv, depp, hm, hnig, hlk, hor⟩ := goDeps_ok_mem _ _ _ _ _ h' q hq
    rcases hor with rfl | ⟨sub, hrec, hqsub⟩
    · exact .single ⟨dn, dv, hm, hnig, hlk⟩
    · exact .head ⟨dn, dv, hm, hnig, hlk⟩ (ih depp sub hrec q hqsub)

/-- Completeness: every package reachable from the root through traversable
edges is in any successful traversal result. -/
theorem reaches_mem_get_all (bps : List (String × BinaryPackage)) (ig : List String)
    {p q : BinaryPackage} (hr : Reaches bps ig p q) :
    ∀ fuel l, get_all_dependents bps ig fuel p = .ok l → q ∈ l := by
  induction hr with
  | single e =>
    intro fuel l h
    obtain ⟨dn, dv, hm, hnig, hlk⟩ := e
    cases fuel with
    | zero => cases h
    | succ n =>
      have h' : goDeps (get_all_dependents bps ig n) bps ig _ = .ok l := h
      exact (goDeps_ok_edge _ _ _ _ _ dn dv _ h' hm hnig hlk).1
  | head e _ ih =>
    intro fuel l h
    obtain ⟨dn, dv, hm, hnig, hlk⟩ := e
    cases fuel with
    | zero => cases h
    | succ n =>
      have h' : goDeps (get_all_dependents bps ig n) bps ig _ = .ok l := h
      obtain ⟨_, sub, hs, hsubin⟩ := goDeps_ok_edge _ _ _ _ _ dn dv _ h' hm hnig hlk
      exact hsubin _ (ih n sub hs)

/-- Every reachable package is stored in the index. -/
theorem reaches_in_index (bps : List (String × BinaryPackage)) (ig : List String)
    {p q : BinaryPackage} (hr : Reaches bps ig p q) : ∃ k, (k, q) ∈ bps := by
  induction hr with
  | single e =>
    obtain ⟨dn, dv, _, _, hlk⟩ := e
    exact lookupDep_mem _ _ _ hlk
  | head _ _ ih => exact ih

/-- `goDeps` succeeds when every non-ignored dependency of the list
resolves and its recursive call succeeds. -/
theorem goDeps_total (recur : BinaryPackage → DepResult)
    (bps : List (String × BinaryPackage)) (ig : List String) :
    ∀ deps,
      (∀ dn dv, (dn, dv) ∈ deps → ig.contains dn = false →
        ∃ depp sub, lookupDep bps dn = some depp ∧ recur depp = .ok sub) →
      ∃ l, goDeps recur bps ig deps = .ok l := by
  intro deps
  induction deps with
  | nil => intro _; exact ⟨[], rfl⟩
  | cons d rest ih =>
    intro h
    obtain ⟨dn, dv⟩ := d
    obtain ⟨lrest, hrest⟩ := ih (fun dn' dv' hm => h dn' dv' (List.mem_cons_of_mem _ hm))
    by_cases hig : dn ∈ ig
    · exact ⟨lrest, by simp [goDeps, hig, hrest]⟩
    · have hig' : ig.contains dn = false := by simpa using hig
      obtain ⟨depp, sub, hlk, hrec⟩ := h dn dv (List.mem_cons_self _ _) hig'
      exact ⟨depp :: (sub ++ lrest), by simp [goDeps, hig, hlk, hrec, hrest]⟩

/-- Termination on rank-certified (acyclic) indexes: with fuel exceeding the
root's rank, the traversal succeeds. -/
theorem get_all_total (bps : List (String × BinaryPackage)) (ig : List String)
    (r : String → Nat) (hall : ∀ e ∈ bps, goodPkgB bps ig r e.2 = true) :
    ∀ n p, r p.name < n → goodPkgB bps ig r p = true →
      ∃ l, get_all_dependents bps ig n p = .ok l := by
  intro n
  induction n with
  | zero => intro p h; exact absurd h (Nat.not_lt_zero _)
  | succ n ih =>
    intro p _ hgood
    have hdeps : ∀ dn dv, (dn, dv) ∈ p.depends → ig.contains dn = false →
        ∃ depp sub, lookupDep bps dn = some depp ∧
          get_all_dependents bps ig n depp = .ok sub := by
      intro dn dv hm hnig
      have hh := List.all_eq_true.mp hgood (dn, dv) hm
      rw [hnig] at hh
      rw [Bool.false_or] at hh
      cases hlk : lookupDep bps dn with
      | none => rw [hlk] at hh; cases hh
      | some depp =>
        rw [hlk] at hh
        have hrank : r depp.name < r p.name := of_decide_eq_true hh
        have hdeppgood : goodPkgB bps ig r depp = true := by
          obtain ⟨k, hk⟩ := lookupDep_mem bps dn depp hlk
          exact hall (k, depp) hk
        obtain ⟨sub, hsub⟩ := ih depp
          (Nat.lt_of_lt_of_le hrank (Nat.lt_succ_iff.mp ‹r p.name < n + 1›)) hdeppgood
        exact ⟨depp, sub, rfl, hsub⟩
    exact goDeps_total (get_all_dependents bps ig n) bps ig p.depends hdeps

/-- Deduplication yields a sublist: output order is traversal order. -/
theorem dedupByName_sublist : ∀ (l : List BinaryPackage) seen,
    (dedupByName l seen).Sublist l := by
  intro l
  induction l with
  | nil => intro _; exact List.Sublist.slnil
  | cons p rest ih =>
    intro seen
    by_cases h : p.name ∈ seen
    · rw [show dedupByName (p :: rest) seen = dedupByName rest seen from by
        simp [dedupByName, h]]
      exact (ih seen).cons p
    · rw [show dedupByName (p :: rest) seen = p :: dedupByName rest (p.name :: seen) from by
        simp [dedupByName, h]]
      exact (ih _).cons₂ p

/-- Deduplication produces pairwise distinct names, all of them fresh with
respect to the seen set. -/
theorem dedupByName_nodup : ∀ (l : List BinaryPackage) seen,
    ((dedupByName l seen).map BinaryPackage.name).Nodup ∧
    ∀ q ∈ dedupByName l seen, ¬ q.name ∈ seen := by
  intro l
  induction l with
  | nil => intro seen; exact ⟨List.nodup_nil, by intro q hq; cases hq⟩
  | cons p rest ih =>
    intro seen
    by_cases h : p.name ∈ seen
    · rw [show dedupByName (p :: rest) seen = dedupByName rest seen from by
        simp [dedupByName, h]]
      exact ih seen
    · rw [show dedupByName (p :: rest) seen = p :: dedupByName rest (p.name :: seen) from by
        simp [dedupByName, h]]
      obtain ⟨hnd, hfresh⟩ := ih (p.name :: seen)
      refine ⟨?_, ?_⟩
      · rw [List.map_cons, List.nodup_cons]
        refine ⟨?_, hnd⟩
        intro hmem
        obtain ⟨q, hq, hqname⟩ := List.mem_map.mp hmem
        exact hfresh q hq (hqname ▸ List.mem_cons_self _ _)
      · intro q hq
        rcases List.mem_cons.mp hq with rfl | hq'
        · exact h
        · exact fun hqs => hfresh q hq' (List.mem_cons_of_mem _ hqs)

/-- Deduplication keeps an element of every name class: when equal names
imply equal elements, membership is preserved. -/
theorem dedupByName_complete : ∀ (l : List BinaryPackage) seen q,
    q ∈ l → ¬ q.name ∈ seen →
    (∀ q1 q2, q1 ∈ l → q2 ∈ l → q1.name = q2.name → q1 = q2) →
    q ∈ dedupByName l seen := by
  intro l
  induction l with
  | nil => intro seen q hq; cases hq
  | cons p rest ih =>
    intro seen q hq hfresh huniq
    by_cases h : p.name ∈ seen
    · rw [show dedupByName (p :: rest) seen = dedupByName rest seen from by
        simp [dedupByName, h]]
      rcases List.mem_cons.mp hq with rfl | hq'
      · exact absurd h hfresh
      · exact ih seen q hq' hfresh
          (fun a b ha hb' => huniq a b (List.mem_cons_of_mem _ ha) (List.mem_cons_of_mem _ hb'))
    · rw [show dedupByName (p :: rest) seen = p :: dedupByName rest (p.name :: seen) from by
        simp [dedupByName, h]]
      rcases List.mem_cons.mp hq with rfl | hq'
      · exact List.mem_cons_self _ _
      · by_cases hqp : q.name = p.name
        · have : q = p := huniq q p (List.mem_cons_of_mem _ hq') (List.mem_cons_self _ _) hqp
          rw [this]
          exact List.mem_cons_self _ _
        · have hfresh' : ¬ q.name ∈ (p.name :: seen) := by
            intro hc
            rcases List.mem_cons.mp hc with hc' | hc'
            · exact hqp hc'
            · exact hfresh hc'
          exact List.mem_cons_of_mem _ (ih (p.name :: seen) q hq' hfresh'
            (fun a b ha hb' => huniq a b (List.mem_cons_of_mem _ ha) (List.mem_cons_of_mem _ hb')))

/-! ## Claim C1 -/

/-- C1 (amended): a package with no dependencies resolves to the empty
list; and on a well-formed index (distinct keys, each package stored under
its own name) whose traversable dependency graph is acyclic — certified by
a strictly decreasing rank — resolution succeeds and yields a list that is
a sublist of the depth-first pre-order yield (first-encountered instance
kept, discovery order preserved), has pairwise distinct package names, and
contains exactly the packages reachable from the root through non-ignored
dependency edges.  (Because of the `-git` lookup fallback the list may
still contain a package whose own name is in the ignore set; only edge
names are filtered.) -/
theorem c1_resolver_amended :
    (∀ bps ignore_deps fuel (p : BinaryPackage), p.depends = [] →
      get_unique_dependents bps ignore_deps (fuel + 1) p = .ok []) ∧
    (∀ bps ignore_deps (root : BinaryPackage) (r : String → Nat),
      (bps.map Prod.fst).Nodup →
      (∀ e ∈ bps, (e.2).name = e.1) →
      goodPkgB bps ignore_deps r root = true →
      (∀ e ∈ bps, goodPkgB bps ignore_deps r e.2 = true) →
      ∃ l L, get_all_dependents bps ignore_deps (r root.name + 1) root = .ok l ∧
        get_unique_dependents bps ignore_deps (r root.name + 1) root = .ok L ∧
        L.Sublist l ∧
        (L.map BinaryPackage.name).Nodup ∧
        (∀ q, q ∈ L ↔ Reaches bps ignore_deps root q)) := by
  constructor
  · intro bps ig fuel p hdep
    have h1 : get_all_dependents bps ig (fuel + 1) p = .ok [] := by
      show goDeps _ bps ig p.depends = .ok []
      rw [hdep]
      rfl
    simp [get_unique_dependents, h1, dedupByName]
  · intro bps ig root r hk hn hroot hall
    obtain ⟨l, hl⟩ :=
      get_all_total bps ig r hall (r root.name + 1) root (Nat.lt_succ_self _) hroot
    refine ⟨l, dedupByName l [], hl, ?_, dedupByName_sublist l [],
      (dedupByName_nodup l []).1, ?_⟩
    · simp [get_unique_dependents, hl]
    · intro q
      constructor
      · intro hq
        exact get_all_mem_reaches bps ig _ root l hl q
          ((dedupByName_sublist l []).subset hq)
      · intro hq
        have hmem : q ∈ l := reaches_mem_get_all bps ig hq _ l hl
        apply dedupByName_complete l [] q hmem (by simp)
        intro q1 q2 h1 h2 hname
        exact index_name_unique bps hk hn q1 q2
          (reaches_in_index bps ig (get_all_mem_reaches bps ig _ root l hl q1 h1))
          (reaches_in_index bps ig (get_all_mem_reaches bps ig _ root l hl q2 h2))
          hname

/-- Witness for C1 on the concrete acyclic index `wIdx` (root `r` depends
on `a` and `b`, `a` depends on `b`): both conjuncts apply. -/
theorem c1_resolver_amended_witness :
    get_unique_dependents wIdx [] 1 wPkgB = .ok [] ∧
    (∃ l L, get_all_dependents wIdx [] (wRank wPkgR.name + 1) wPkgR = .ok l ∧
      get_unique_dependents wIdx [] (wRank wPkgR.name + 1) wPkgR = .ok L ∧
      L.Sublist l ∧
      (L.map BinaryPackage.name).Nodup ∧
      (∀ q, q ∈ L ↔ Reaches wIdx [] wPkgR q)) :=
  ⟨c1_resolver_amended.1 wIdx [] 0 wPkgB rfl,
   c1_resolver_amended.2 wIdx [] wPkgR wRank (by decide) (by decide) (by decide)
     (by decide)⟩

/-- Counterexample for C1 as frozen: on an acyclic index (certified by
`cexRank`) where dependency name `x` only resolves through the `x-git`
fallback key, resolving with ignore set `{x-git}` returns the package
named `x-git` even though that name is in the ignore set — the resolved
list is not free of ignored names. -/
theorem c1_counterexample :
    goodPkgB cexIdx ["x-git"] cexRank cexRoot = true ∧
    goodPkgB cexIdx ["x-git"] cexRank cexXgit = true ∧
    get_unique_dependents cexIdx ["x-git"] 2 cexRoot = .ok [cexXgit] ∧
    cexXgit.name = "x-git" ∧
    "x-git" ∈ ["x-git"] := by decide

end HomebrewScript
